import Mathlib

/-!
Verification of the shadow-tree classifier and path matcher of
`title_info.py` (functions `build_shadow_trees`, `search_contents` and
`search_shadow_trees`).

The Python code stores shadow trees as dynamically typed nested `dict`s in
which path segments share the key namespace with the annotation keys
`"title"`, `"path"` and `"type"`.  The embedding therefore models values as
a dynamic type `PyVal` (string / list of strings / dict with insertion
order), and models the Python operators `in`, indexing and item assignment
with their genuine semantics, including the `TypeError` / `KeyError`
exceptions they can raise, surfaced through `Except PyErr`.
-/

namespace Sefaria

/-- ASCII lowering of one character, as Python's `str.lower` acts on the
ASCII range (the fixed keyword list of the code is pure ASCII). -/
def charLower (c : Char) : Char :=
  if 65 ≤ c.toNat ∧ c.toNat ≤ 90 then Char.ofNat (c.toNat + 32) else c

/-- Model of `str.lower()` (line 66 of `title_info.py`). -/
def strLower (x : String) : String :=
  ⟨x.data.map charLower⟩

/-- Decides whether the first character list is a prefix of the second. -/
def charsPrefix : List Char → List Char → Bool
  | [], _ => true
  | _ :: _, [] => false
  | a :: as, b :: bs => a = b && charsPrefix as bs

/-- Decides whether the first character list occurs contiguously inside the
second. -/
def charsInfix : List Char → List Char → Bool
  | needle, [] => charsPrefix needle []
  | needle, c :: rest => charsPrefix needle (c :: rest) || charsInfix needle rest

/-- Model of Python's substring test `needle in hay` on strings. -/
def strIn (needle hay : String) : Bool :=
  charsInfix needle.data hay.data

/-- Dynamically typed values stored inside a shadow tree: the code puts
string annotations (`"title"`, `"type"`), a list-of-strings annotation
(`"path"`) and nested dicts into the same mapping. -/
inductive PyVal where
  | s : String → PyVal
  | l : List String → PyVal
  | d : List (String × PyVal) → PyVal

/-- Exceptions the modelled Python fragments can raise. -/
inductive PyErr where
  | typeError
  | keyError
deriving DecidableEq, Repr

/-- Entries of a Python dict with string keys, in insertion order. -/
abbrev Entries := List (String × PyVal)

/-- Lookup in a dict: first (and in a genuine dict: only) binding wins. -/
def dGet : Entries → String → Option PyVal
  | [], _ => none
  | (k, v) :: rest, key => if k = key then some v else dGet rest key

/-- Item assignment `d[key] = val` on a dict: an existing binding is updated
in place, a new binding is appended (Python dicts preserve insertion
order). -/
def dSet : Entries → String → PyVal → Entries
  | [], key, val => [(key, val)]
  | (k, v) :: rest, key, val =>
      if k = key then (k, val) :: rest else (k, v) :: dSet rest key val

/-- A node of the table of contents, with exactly the fields
`search_contents` reads (lines 61-66); a field that is missing from the
JSON object is represented by the default the code supplies to
`item.get`. -/
inductive TocItem where
  | node (title heTitle : String) (categories : List String) (dependence : String)
         (base_text_titles : List String) (enShortDesc : String)
         (contents : List TocItem)

/-- Value of `item.get("title", "")`. -/
def TocItem.title : TocItem → String
  | .node t _ _ _ _ _ _ => t

/-- Value of `item.get("heTitle", "")`. -/
def TocItem.heTitle : TocItem → String
  | .node _ h _ _ _ _ _ => h

/-- Value of `item.get("categories", [])`. -/
def TocItem.categories : TocItem → List String
  | .node _ _ c _ _ _ _ => c

/-- Value of `item.get("dependence", "")`. -/
def TocItem.dependence : TocItem → String
  | .node _ _ _ d _ _ _ => d

/-- Value of `item.get("base_text_titles", [])`. -/
def TocItem.base_text_titles : TocItem → List String
  | .node _ _ _ _ b _ _ => b

/-- Value of `item.get("enShortDesc", "")`. -/
def TocItem.enShortDesc : TocItem → String
  | .node _ _ _ _ _ e _ => e

/-- Nested `item["contents"]`; an item without the key behaves exactly like
one whose `contents` list is empty (the recursion at line 102 is a no-op on
an empty list). -/
def TocItem.contents : TocItem → List TocItem
  | .node _ _ _ _ _ _ cs => cs

theorem TocItem.sizeOf_contents_lt (i : TocItem) : sizeOf i.contents < sizeOf i := by
  cases i with
  | node a b c d e g cs =>
      simp only [TocItem.contents, TocItem.node.sizeOf_spec]
      omega

/-- Python's `a or b` on strings: `a` when it is non-empty, else `b`. -/
def pyOr (a b : String) : String :=
  if a = "" then b else a

/-- Line 77: `commentator_name = he_title or en_title`. -/
def commentatorName (i : TocItem) : String :=
  pyOr i.heTitle i.title

/-- Lines 86 and 102: the segment a node contributes to paths,
`en_title or he_title`. -/
def itemLabel (i : TocItem) : String :=
  pyOr i.title i.heTitle

/-- Line 69: the modernity keyword filter over the case-folded short
description. -/
def excludedItem (i : TocItem) : Bool :=
  ["modern", "contemporary", "21st-century", "20th-century"].any
    (fun kw => strIn kw (strLower i.enShortDesc))

/-- Line 73: `target_title in base_text_titles and len(base_text_titles) == 1`. -/
def is_specific (target : String) (i : TocItem) : Bool :=
  i.base_text_titles.contains target && i.base_text_titles.length == 1

/-- Line 74: `any(f"{target_title}" in cat for cat in categories)` — a
substring test against every category string. -/
def is_category_specific (target : String) (i : TocItem) : Bool :=
  i.categories.any (fun cat => strIn target cat)

/-- First conjunct of line 76: `"Commentary" in categories or
dependence == "Commentary" or "Targum" in categories`. -/
def depTest (i : TocItem) : Bool :=
  i.categories.contains "Commentary" || i.dependence == "Commentary" ||
    i.categories.contains "Targum"

/-- Whole condition of line 76. -/
def qualGuard (target : String) (i : TocItem) : Bool :=
  depTest i && (is_specific target i || is_category_specific target i)

/-- Line 98: `"Targum" if "Targum" in categories else "Commentary"`. -/
def itemType (i : TocItem) : String :=
  if i.categories.contains "Targum" then "Targum" else "Commentary"

/-- Lines 96-98: the three annotation assignments on the node reached by the
insertion walk.  Assigning into a non-dict raises `TypeError`. -/
def annotate (v : PyVal) (titl : String) (pth : List String) (ty : String) :
    Except PyErr PyVal :=
  match v with
  | .d es =>
      .ok (.d (dSet (dSet (dSet es "title" (.s titl)) "path" (.l pth)) "type" (.s ty)))
  | _ => .error .typeError

/-- Lines 90-98: the walk `for segment in item_path` that creates missing
levels with `current_node[segment] = {}` and finally writes the three
annotations.  Stepping into a non-dict value raises `TypeError` exactly as
Python does (`in` on a string or list may succeed, but the subsequent item
access or item assignment with a string index raises). -/
def insertWalk (v : PyVal) (segs : List String) (titl : String)
    (pth : List String) (ty : String) : Except PyErr PyVal :=
  match segs with
  | [] => annotate v titl pth ty
  | seg :: rest =>
      match v with
      | .d es =>
          match dGet es seg with
          | some child =>
              match insertWalk child rest titl pth ty with
              | .ok child2 => .ok (.d (dSet es seg child2))
              | .error e => .error e
          | none =>
              match insertWalk (.d []) rest titl pth ty with
              | .ok child2 => .ok (.d (dSet es seg child2))
              | .error e => .error e
      | _ => .error .typeError

/-- Lines 61-98 for a single TOC item: the field reads, the keyword filter,
the line 76 test and, on qualification, the insertion into the
commentator's shadow tree.  The returned flag records whether the loop body
ended in `continue` before reaching the recursion of line 102 (which
happens for excluded items and for qualifying items with an empty
commentator name). -/
def processOne (trees : Entries) (i : TocItem) (curPath : List String)
    (target : String) : Except PyErr (Entries × Bool) :=
  if excludedItem i then .ok (trees, true)
  else if qualGuard target i then
    if commentatorName i = "" then .ok (trees, true)
    else
      let trees0 :=
        match dGet trees (commentatorName i) with
        | some _ => trees
        | none => dSet trees (commentatorName i) (.d [])
      match dGet trees0 (commentatorName i) with
      | none => .error .keyError
      | some tree =>
          match insertWalk tree (curPath ++ [itemLabel i]) (itemLabel i)
              (curPath ++ [itemLabel i]) (itemType i) with
          | .ok tree2 => .ok (dSet trees0 (commentatorName i) tree2, false)
          | .error e => .error e
  else .ok (trees, false)

/-- The recursive `search_contents` of lines 59-102: the loop over the
items, per-item classification, and the recursion into `item["contents"]`
with the path extended by the item's label. -/
def searchContents (trees : Entries) (items : List TocItem)
    (curPath : List String) (target : String) : Except PyErr Entries :=
  match items with
  | [] => .ok trees
  | i :: rest =>
      match processOne trees i curPath target with
      | .error e => .error e
      | .ok (trees1, true) => searchContents trees1 rest curPath target
      | .ok (trees1, false) =>
          match searchContents trees1 i.contents (curPath ++ [itemLabel i]) target with
          | .error e => .error e
          | .ok trees2 => searchContents trees2 rest curPath target
termination_by sizeOf items
decreasing_by
  · simp only [List.cons.sizeOf_spec]
    omega
  · have h1 := TocItem.sizeOf_contents_lt i
    simp only [List.cons.sizeOf_spec]
    omega
  · simp only [List.cons.sizeOf_spec]
    omega

/-- Lines 51-106 with the file I/O stripped: `build_shadow_trees` starts
`search_contents` on the decoded TOC with the empty shared dict and the
empty ancestor path. -/
def build_shadow_trees (index_data : List TocItem) (target_title : String) :
    Except PyErr Entries :=
  searchContents [] index_data [] target_title

/-- Python's `seg in v` for the values that can occur in a shadow tree:
key membership on a dict, substring containment on a string, element
membership on a list of strings. -/
def pyIn (seg : String) : PyVal → Bool
  | .d es => (dGet es seg).isSome
  | .s str => strIn seg str
  | .l xs => xs.contains seg

/-- Python's `v[seg]` with a string index: a dict lookup that raises
`KeyError` on a missing key, and `TypeError` on a string or list. -/
def pyIndex (v : PyVal) (seg : String) : Except PyErr PyVal :=
  match v with
  | .d es =>
      match dGet es seg with
      | some x => .ok x
      | none => .error .keyError
  | _ => .error .typeError

/-- Lines 114-120: the walk `for segment in search_path` over one
commentator's tree; `ok none` is the `found = False` early break, `ok
(some v)` is a completed walk ending at `v`. -/
def walkPath (v : PyVal) (segs : List String) : Except PyErr (Option PyVal) :=
  match segs with
  | [] => .ok (some v)
  | seg :: rest =>
      if pyIn seg v then
        match pyIndex v seg with
        | .ok v2 => walkPath v2 rest
        | .error e => .error e
      else .ok none

/-- One result dict of line 123-128; the fields carry the Hebrew keys
`מפרש_או_תרגום`, `כותר`, `סוג`, `מסלול` of the source in that order. -/
structure MatchRecord where
  author : String
  title : PyVal
  ty : PyVal
  path : PyVal

/-- Lines 114-128 for a single commentator: the walk, the `"title" in
current_node` test, and the three reads that build the result dict (each
read can raise, in the evaluation order of the dict literal). -/
def searchAuthor (commentator : String) (tree : PyVal) (segs : List String) :
    Except PyErr (Option MatchRecord) :=
  match walkPath tree segs with
  | .error e => .error e
  | .ok none => .ok none
  | .ok (some node) =>
      if pyIn "title" node then
        match pyIndex node "title" with
        | .error e => .error e
        | .ok t =>
            match pyIndex node "type" with
            | .error e => .error e
            | .ok ty =>
                match pyIndex node "path" with
                | .error e => .error e
                | .ok p => .ok (some ⟨commentator, t, ty, p⟩)
      else .ok none

/-- Lines 108-131: `search_shadow_trees` iterates the commentators in
insertion order and collects the matches. -/
def search_shadow_trees (shadow_trees : Entries) (search_path : List String) :
    Except PyErr (List MatchRecord) :=
  match shadow_trees with
  | [] => .ok []
  | (commentator, tree) :: rest =>
      match searchAuthor commentator tree search_path with
      | .error e => .error e
      | .ok none => search_shadow_trees rest search_path
      | .ok (some r) =>
          match search_shadow_trees rest search_path with
          | .error e => .error e
          | .ok rs => .ok (r :: rs)

/-- Specification helper: the walk along a path that only ever follows dict
bindings, returning the value it ends on. -/
def walkDicts : PyVal → List String → Option PyVal
  | v, [] => some v
  | .d es, seg :: rest =>
      match dGet es seg with
      | some v2 => walkDicts v2 rest
      | none => none
  | _, _ :: _ => none

/-- Specification helper: the walk along the path meets a missing key while
still standing on a dict (the benign `found = False` outcome). -/
def failsInDicts : PyVal → List String → Bool
  | _, [] => false
  | .d es, seg :: rest =>
      match dGet es seg with
      | some v2 => failsInDicts v2 rest
      | none => true
  | _, _ :: _ => false

/-- Specification helper: occurrence of a TOC node anywhere in a TOC
forest, at any depth. -/
inductive OccursIn : TocItem → List TocItem → Prop where
  | head (i : TocItem) (items : List TocItem) : i ∈ items → OccursIn i items
  | child (i j : TocItem) (items : List TocItem) :
      j ∈ items → OccursIn i j.contents → OccursIn i items

/-- Replaces the nested contents of a node, keeping every other field. -/
def TocItem.withContents : TocItem → List TocItem → TocItem
  | .node a b c d e f _, cs => .node a b c d e f cs

/-- Heap-threaded variant of `searchContents` for the frame property: the
traversed TOC slice is carried through the computation and reassembled in
the result, so that any write the loop body performed on a TOC node would
show up in the returned slice.  The loop body (`processOne`, lines 61-98)
contains no assignment whose target is `item`, hence each `i` is returned
as read. -/
def searchContentsH (trees : Entries) (items : List TocItem)
    (curPath : List String) (target : String) :
    Except PyErr (Entries × List TocItem) :=
  match items with
  | [] => .ok (trees, [])
  | i :: rest =>
      match processOne trees i curPath target with
      | .error e => .error e
      | .ok (trees1, true) =>
          match searchContentsH trees1 rest curPath target with
          | .error e => .error e
          | .ok (trees2, rest2) => .ok (trees2, i :: rest2)
      | .ok (trees1, false) =>
          match searchContentsH trees1 i.contents (curPath ++ [itemLabel i]) target with
          | .error e => .error e
          | .ok (trees2, contents2) =>
              match searchContentsH trees2 rest curPath target with
              | .error e => .error e
              | .ok (trees3, rest3) => .ok (trees3, TocItem.withContents i contents2 :: rest3)
termination_by sizeOf items
decreasing_by
  · simp only [List.cons.sizeOf_spec]
    omega
  · have h1 := TocItem.sizeOf_contents_lt i
    simp only [List.cons.sizeOf_spec]
    omega
  · simp only [List.cons.sizeOf_spec]
    omega

/-- Invariant behind the path/key synchronisation: every dict reachable
from `v` along a key sequence `ks` whose `"path"` entry is a list equals
`pre ++ ks`, where `pre` is the key sequence leading to `v` from the root
of its tree. -/
def TreeInvAt (pre : List String) (v : PyVal) : Prop :=
  ∀ ks es L, walkDicts v ks = some (.d es) → dGet es "path" = some (.l L) →
    L = pre ++ ks

/-- Forest-level form of `TreeInvAt`: every commentator's tree satisfies
the path/key synchronisation from its own root. -/
def ForestInv (trees : Entries) : Prop :=
  ∀ c tree, dGet trees c = some tree → TreeInvAt [] tree

/-- TOC of the spec's Rashi scenario. -/
def tocScenario : List TocItem :=
  [.node "Genesis" "" ["Tanakh"] "" [] "" [],
   .node "Rashi on Genesis" "רש\"י" ["Commentary"] "" ["Genesis"] "" []]

/-- Whole forest the code builds from `tocScenario` for target `"Genesis"`. -/
def forestScenario : Entries :=
  [("רש\"י", .d [("Rashi on Genesis",
      .d [("title", .s "Rashi on Genesis"),
          ("path", .l ["Rashi on Genesis"]),
          ("type", .s "Commentary")])])]

/-- A node excluded by the modernity filter whose single child qualifies
for target `"T"`. -/
def cModernParent : TocItem :=
  .node "P" "" [] "" [] "A modern commentary"
    [.node "C" "R" ["Commentary"] "" ["T"] "" []]

/-- The qualifying child nested inside `cModernParent`. -/
def cChild : TocItem :=
  .node "C" "R" ["Commentary"] "" ["T"] "" []

/-- A node passing the dependency and target tests for target
`"Commentary"` whose two labels are both empty. -/
def cNoName : TocItem :=
  .node "" "" ["Commentary"] "" [] "" []

/-- A Targum on Genesis. -/
def cTargum : TocItem :=
  .node "Onkelos" "" ["Targum"] "" ["Genesis"] "" []

/-- A plain qualifying commentary on `"T"` with label `X`. -/
def cX : TocItem :=
  .node "X" "R" ["Commentary"] "" ["T"] "" []

/-- The forest built from `[cX]` and target `"T"`. -/
def forestX : Entries :=
  [("R", .d [("X",
      .d [("title", .s "X"), ("path", .l ["X"]), ("type", .s "Commentary")])])]

/-- A qualifying commentary on `"G"` whose primary label is the literal
string `"title"`. -/
def cTitleLabel : TocItem :=
  .node "title" "R" ["Commentary"] "" ["G"] "" []

/-- The forest built from `[cTitleLabel]` and target `"G"`: the author's
root mapping gains an entry keyed `"title"`. -/
def forestTitle : Entries :=
  [("R", .d [("title",
      .d [("title", .s "title"), ("path", .l ["title"]), ("type", .s "Commentary")])])]

/-- A node that qualifies for no target at all. -/
def cPlain : TocItem :=
  .node "Plain" "" ["Tanakh"] "" [] "" []

/-- The forest built from `[cTargum]` and target `"Genesis"`. -/
def fTargum : Entries :=
  [("Onkelos", .d [("Onkelos",
      .d [("title", .s "Onkelos"), ("path", .l ["Onkelos"]), ("type", .s "Targum")])])]

/-- The single match produced by querying `forestX` with path `["X"]`. -/
def recX : MatchRecord :=
  ⟨"R", .s "X", .s "Commentary", .l ["X"]⟩

theorem dGet_dSet_self (es : Entries) (k : String) (v : PyVal) :
    dGet (dSet es k v) k = some v := by
  induction es with
  | nil => simp [dGet, dSet]
  | cons hd tl ih =>
      obtain ⟨k0, v0⟩ := hd
      by_cases h : k0 = k
      · simp [dGet, dSet, h]
      · simp [dGet, dSet, h, ih]

theorem dGet_dSet_ne (es : Entries) (k k' : String) (v : PyVal) (h : k ≠ k') :
    dGet (dSet es k v) k' = dGet es k' := by
  induction es with
  | nil => simp [dGet, dSet, h]
  | cons hd tl ih =>
      obtain ⟨k0, v0⟩ := hd
      by_cases h0 : k0 = k
      · subst h0
        simp [dGet, dSet, h]
      · by_cases h1 : k0 = k'
        · simp [dGet, dSet, h0, h1, Ne.symm h]
        · simp [dGet, dSet, h0, h1, ih]

theorem searchContents_nil (trees : Entries) (curPath : List String) (target : String) :
    searchContents trees [] curPath target = .ok trees := by
  rw [searchContents]

theorem searchContents_cons (trees : Entries) (i : TocItem) (rest : List TocItem)
    (curPath : List String) (target : String) :
    searchContents trees (i :: rest) curPath target =
      match processOne trees i curPath target with
      | .error e => .error e
      | .ok (trees1, true) => searchContents trees1 rest curPath target
      | .ok (trees1, false) =>
          match searchContents trees1 i.contents (curPath ++ [itemLabel i]) target with
          | .error e => .error e
          | .ok trees2 => searchContents trees2 rest curPath target := by
  rw [searchContents]

theorem searchContentsH_nil (trees : Entries) (curPath : List String) (target : String) :
    searchContentsH trees [] curPath target = .ok (trees, []) := by
  rw [searchContentsH]

theorem searchContentsH_cons (trees : Entries) (i : TocItem) (rest : List TocItem)
    (curPath : List String) (target : String) :
    searchContentsH trees (i :: rest) curPath target =
      match processOne trees i curPath target with
      | .error e => .error e
      | .ok (trees1, true) =>
          match searchContentsH trees1 rest curPath target with
          | .error e => .error e
          | .ok (trees2, rest2) => .ok (trees2, i :: rest2)
      | .ok (trees1, false) =>
          match searchContentsH trees1 i.contents (curPath ++ [itemLabel i]) target with
          | .error e => .error e
          | .ok (trees2, contents2) =>
              match searchContentsH trees2 rest curPath target with
              | .error e => .error e
              | .ok (trees3, rest3) => .ok (trees3, TocItem.withContents i contents2 :: rest3) := by
  rw [searchContentsH]

theorem insertWalk_isD (segs : List String) : ∀ v titl pth ty v2,
    insertWalk v segs titl pth ty = .ok v2 → ∃ es, v2 = .d es := by
  induction segs with
  | nil =>
      intro v titl pth ty v2 h
      cases v with
      | d es =>
          simp only [insertWalk, annotate] at h
          exact ⟨_, (Except.ok.inj h).symm⟩
      | s x => simp [insertWalk, annotate] at h
      | l x => simp [insertWalk, annotate] at h
  | cons seg rest ih =>
      intro v titl pth ty v2 h
      cases v with
      | d es =>
          simp only [insertWalk] at h
          cases hg : dGet es seg with
          | some child =>
              simp only [hg] at h
              cases hrec : insertWalk child rest titl pth ty with
              | ok child2 => simp only [hrec] at h; exact ⟨_, (Except.ok.inj h).symm⟩
              | error e => simp only [hrec] at h; simp at h
          | none =>
              simp only [hg] at h
              cases hrec : insertWalk (.d []) rest titl pth ty with
              | ok child2 => simp only [hrec] at h; exact ⟨_, (Except.ok.inj h).symm⟩
              | error e => simp only [hrec] at h; simp at h
      | s x => simp [insertWalk] at h
      | l x => simp [insertWalk] at h

theorem insertWalk_walkDicts (segs : List String) : ∀ v titl pth ty v2,
    insertWalk v segs titl pth ty = .ok v2 →
    ∃ es, walkDicts v2 segs = some (.d es) ∧
      dGet es "title" = some (.s titl) ∧
      dGet es "path" = some (.l pth) ∧
      dGet es "type" = some (.s ty) := by
  induction segs with
  | nil =>
      intro v titl pth ty v2 h
      cases v with
      | d es =>
          simp only [insertWalk, annotate] at h
          refine ⟨dSet (dSet (dSet es "title" (.s titl)) "path" (.l pth)) "type" (.s ty),
            ?_, ?_, ?_, ?_⟩
          · rw [← Except.ok.inj h]; rfl
          · rw [dGet_dSet_ne _ _ _ _ (by decide), dGet_dSet_ne _ _ _ _ (by decide),
              dGet_dSet_self]
          · rw [dGet_dSet_ne _ _ _ _ (by decide), dGet_dSet_self]
          · rw [dGet_dSet_self]
      | s x => simp [insertWalk, annotate] at h
      | l x => simp [insertWalk, annotate] at h
  | cons seg rest ih =>
      intro v titl pth ty v2 h
      cases v with
      | d es =>
          simp only [insertWalk] at h
          cases hg : dGet es seg with
          | some child =>
              simp only [hg] at h
              cases hrec : insertWalk child rest titl pth ty with
              | ok child2 =>
                  simp only [hrec] at h
                  obtain ⟨es2, hw, ht, hp, hty⟩ := ih child titl pth ty child2 hrec
                  refine ⟨es2, ?_, ht, hp, hty⟩
                  rw [← Except.ok.inj h]
                  simp only [walkDicts, dGet_dSet_self]
                  exact hw
              | error e => simp only [hrec] at h; simp at h
          | none =>
              simp only [hg] at h
              cases hrec : insertWalk (.d []) rest titl pth ty with
              | ok child2 =>
                  simp only [hrec] at h
                  obtain ⟨es2, hw, ht, hp, hty⟩ := ih (.d []) titl pth ty child2 hrec
                  refine ⟨es2, ?_, ht, hp, hty⟩
                  rw [← Except.ok.inj h]
                  simp only [walkDicts, dGet_dSet_self]
                  exact hw
              | error e => simp only [hrec] at h; simp at h
      | s x => simp [insertWalk] at h
      | l x => simp [insertWalk] at h

theorem walkPath_ok_some (segs : List String) : ∀ v node,
    walkPath v segs = .ok (some node) ↔ walkDicts v segs = some node := by
  induction segs with
  | nil =>
      intro v node
      simp [walkPath, walkDicts]
  | cons seg rest ih =>
      intro v node
      cases v with
      | d es =>
          cases hg : dGet es seg with
          | some v2 =>
              have hin : pyIn seg (.d es) = true := by simp [pyIn, hg]
              simp only [walkPath, walkDicts, hin, if_true, pyIndex, hg]
              exact ih v2 node
          | none =>
              have hin : pyIn seg (.d es) = false := by simp [pyIn, hg]
              simp [walkPath, walkDicts, hin, hg]
      | s x =>
          by_cases hin : pyIn seg (.s x) = true
          · simp [walkPath, walkDicts, hin, pyIndex]
          · simp only [Bool.not_eq_true] at hin
            simp [walkPath, walkDicts, hin]
      | l x =>
          by_cases hin : pyIn seg (.l x) = true
          · simp [walkPath, walkDicts, hin, pyIndex]
          · simp only [Bool.not_eq_true] at hin
            simp [walkPath, walkDicts, hin]

theorem pyIndex_ok (v : PyVal) (k : String) (x : PyVal) :
    pyIndex v k = .ok x → ∃ es, v = .d es ∧ dGet es k = some x := by
  intro h
  cases v with
  | d es =>
      refine ⟨es, rfl, ?_⟩
      simp only [pyIndex] at h
      cases hg : dGet es k with
      | some y => rw [hg] at h; rw [Except.ok.inj h]
      | none => rw [hg] at h; cases h
  | s a => simp [pyIndex] at h
  | l a => simp [pyIndex] at h

theorem searchAuthor_ok_some (c : String) (tree : PyVal) (segs : List String)
    (r : MatchRecord) (h : searchAuthor c tree segs = .ok (some r)) :
    r.author = c ∧ ∃ es, walkDicts tree segs = some (.d es) ∧ (dGet es "title").isSome := by
  unfold searchAuthor at h
  cases hw : walkPath tree segs with
  | error e => rw [hw] at h; cases h
  | ok o =>
      cases o with
      | none => rw [hw] at h; cases h
      | some node =>
          simp only [hw] at h
          by_cases hin : pyIn "title" node = true
          · rw [if_pos hin] at h
            cases ht : pyIndex node "title" with
            | error e => simp only [ht] at h; simp at h
            | ok t =>
                simp only [ht] at h
                cases hty : pyIndex node "type" with
                | error e => simp only [hty] at h; simp at h
                | ok ty =>
                    simp only [hty] at h
                    cases hp : pyIndex node "path" with
                    | error e => simp only [hp] at h; simp at h
                    | ok p =>
                        simp only [hp] at h
                        obtain ⟨es, hnode, hget⟩ := pyIndex_ok node "title" t ht
                        subst hnode
                        refine ⟨?_, es, ?_, ?_⟩
                        · rw [← Option.some.inj (Except.ok.inj h)]
                        · exact (walkPath_ok_some segs tree _).mp hw
                        · simp [hget]
          · rw [if_neg hin] at h
            cases h

theorem searchAuthor_ok_none (c : String) (tree : PyVal) (segs : List String)
    (h : searchAuthor c tree segs = .ok none) :
    ¬∃ es, walkDicts tree segs = some (.d es) ∧ (dGet es "title").isSome := by
  rintro ⟨es, hw, ht⟩
  have hwp : walkPath tree segs = .ok (some (.d es)) := (walkPath_ok_some segs tree _).mpr hw
  unfold searchAuthor at h
  simp only [hwp] at h
  have hin : pyIn "title" (.d es) = true := by simp [pyIn, ht]
  rw [if_pos hin] at h
  obtain ⟨tv, htv⟩ := Option.isSome_iff_exists.mp ht
  have hidx : pyIndex (.d es) "title" = .ok tv := by simp [pyIndex, htv]
  simp only [hidx] at h
  cases hty : pyIndex (.d es) "type" with
  | error e => simp only [hty] at h; cases h
  | ok ty =>
      simp only [hty] at h
      cases hp : pyIndex (.d es) "path" with
      | error e => simp only [hp] at h; cases h
      | ok p => simp only [hp] at h; cases h

theorem sst_authors_mem (trees : Entries) (segs : List String)
    (results : List MatchRecord)
    (h : search_shadow_trees trees segs = .ok results) :
    ∀ r ∈ results, r.author ∈ trees.map Prod.fst := by
  induction trees generalizing results with
  | nil =>
      simp only [search_shadow_trees] at h
      rw [← Except.ok.inj h]
      intro r hr
      cases hr
  | cons hd rest ih =>
      obtain ⟨c, tree⟩ := hd
      simp only [search_shadow_trees] at h
      cases hsa : searchAuthor c tree segs with
      | error e => simp only [hsa] at h; cases h
      | ok o =>
          cases o with
          | none =>
              simp only [hsa] at h
              intro r hr
              exact List.mem_cons_of_mem _ (ih results h r hr)
          | some r0 =>
              simp only [hsa] at h
              cases hrest : search_shadow_trees rest segs with
              | error e => simp only [hrest] at h; cases h
              | ok rs =>
                  simp only [hrest] at h
                  rw [← Except.ok.inj h]
                  intro r hr
                  cases hr with
                  | head =>
                      have := (searchAuthor_ok_some c tree segs r0 hsa).1
                      simp [this]
                  | tail _ hmem =>
                      exact List.mem_cons_of_mem _ (ih rs hrest r hmem)

theorem treeInvAt_fresh (pre : List String) : TreeInvAt pre (.d []) := by
  intro ks es L hw hp
  cases ks with
  | nil =>
      simp only [walkDicts] at hw
      rw [← PyVal.d.inj (Option.some.inj hw)] at hp
      cases hp
  | cons k ks' =>
      simp [walkDicts, dGet] at hw

theorem treeInvAt_child (pre : List String) (es : Entries) (seg : String) (v : PyVal)
    (hinv : TreeInvAt pre (.d es)) (hg : dGet es seg = some v) :
    TreeInvAt (pre ++ [seg]) v := by
  intro ks es' L hw hp
  have hw2 : walkDicts (.d es) (seg :: ks) = some (.d es') := by
    simp only [walkDicts, hg]
    exact hw
  have := hinv (seg :: ks) es' L hw2 hp
  simp only [this, List.append_assoc, List.singleton_append]

theorem insertWalkInvStep (pre : List String) (seg : String) (es0 : Entries)
    (child2 : PyVal) (esc : Entries) (hesc : child2 = .d esc)
    (hinv : TreeInvAt pre (.d es0)) (hc2 : TreeInvAt (pre ++ [seg]) child2) :
    TreeInvAt pre (.d (dSet es0 seg child2)) := by
  intro ks es L hw hp
  cases ks with
  | nil =>
      simp only [walkDicts] at hw
      have hes : es = dSet es0 seg child2 := (PyVal.d.inj (Option.some.inj hw)).symm
      subst hes
      by_cases hsp : seg = "path"
      · subst hsp
        rw [dGet_dSet_self, hesc] at hp
        simp at hp
      · rw [dGet_dSet_ne _ _ _ _ hsp] at hp
        have := hinv [] es0 L rfl hp
        simpa using this
  | cons k ks' =>
      by_cases hks : k = seg
      · subst hks
        simp only [walkDicts, dGet_dSet_self] at hw
        have := hc2 ks' es L hw hp
        rw [this]
        simp
      · have hred : walkDicts (.d es0) (k :: ks') = some (.d es) := by
          simp only [walkDicts] at hw ⊢
          rw [dGet_dSet_ne _ _ _ _ (fun hh => hks hh.symm)] at hw
          exact hw
        exact hinv (k :: ks') es L hred hp

theorem insertWalk_inv (segs : List String) : ∀ pre v v2 titl ty,
    TreeInvAt pre v → insertWalk v segs titl (pre ++ segs) ty = .ok v2 →
    TreeInvAt pre v2 := by
  induction segs with
  | nil =>
      intro pre v v2 titl ty hinv h
      cases v with
      | d es0 =>
          simp only [insertWalk, annotate, List.append_nil] at h
          rw [← Except.ok.inj h]
          intro ks es L hw hp
          cases ks with
          | nil =>
              simp only [walkDicts] at hw
              rw [← PyVal.d.inj (Option.some.inj hw)] at hp
              rw [dGet_dSet_ne _ _ _ _ (by decide), dGet_dSet_self] at hp
              rw [← PyVal.l.inj (Option.some.inj hp)]
              simp
          | cons k ks' =>
              by_cases hk1 : k = "type"
              · subst hk1
                simp only [walkDicts, dGet_dSet_self] at hw
                cases ks' with
                | nil => simp only [walkDicts] at hw; cases hw
                | cons a b => simp [walkDicts] at hw
              · by_cases hk2 : k = "path"
                · subst hk2
                  simp only [walkDicts, dGet_dSet_ne _ _ _ _ (fun hh => hk1 hh.symm),
                    dGet_dSet_self] at hw
                  cases ks' with
                  | nil => simp only [walkDicts] at hw; cases hw
                  | cons a b => simp [walkDicts] at hw
                · by_cases hk3 : k = "title"
                  · subst hk3
                    simp only [walkDicts, dGet_dSet_ne _ _ _ _ (fun hh => hk1 hh.symm),
                      dGet_dSet_ne _ _ _ _ (fun hh => hk2 hh.symm), dGet_dSet_self] at hw
                    cases ks' with
                    | nil => simp only [walkDicts] at hw; cases hw
                    | cons a b => simp [walkDicts] at hw
                  · have hred : walkDicts (.d es0) (k :: ks') = some (.d es) := by
                      simp only [walkDicts] at hw ⊢
                      rw [dGet_dSet_ne _ _ _ _ (fun hh => hk1 hh.symm),
                        dGet_dSet_ne _ _ _ _ (fun hh => hk2 hh.symm),
                        dGet_dSet_ne _ _ _ _ (fun hh => hk3 hh.symm)] at hw
                      exact hw
                    have := hinv (k :: ks') es L hred hp
                    simpa using this
      | s x => simp [insertWalk, annotate] at h
      | l x => simp [insertWalk, annotate] at h
  | cons seg rest ih =>
      intro pre v v2 titl ty hinv h
      cases v with
      | d es0 =>
          simp only [insertWalk] at h
          have hassoc : pre ++ seg :: rest = (pre ++ [seg]) ++ rest := by simp
          cases hg : dGet es0 seg with
          | some child =>
              simp only [hg] at h
              cases hrec : insertWalk child rest titl (pre ++ seg :: rest) ty with
              | error e => simp only [hrec] at h; cases h
              | ok child2 =>
                  simp only [hrec] at h
                  have hchildinv : TreeInvAt (pre ++ [seg]) child :=
                    treeInvAt_child pre es0 seg child hinv hg
                  have hrec2 : insertWalk child rest titl ((pre ++ [seg]) ++ rest) ty =
                      .ok child2 := by rw [← hassoc]; exact hrec
                  have hc2inv := ih (pre ++ [seg]) child child2 titl ty hchildinv hrec2
                  obtain ⟨esc, hesc⟩ := insertWalk_isD rest child titl _ ty child2 hrec
                  rw [← Except.ok.inj h]
                  exact insertWalkInvStep pre seg es0 child2 esc hesc hinv hc2inv
          | none =>
              simp only [hg] at h
              cases hrec : insertWalk (.d []) rest titl (pre ++ seg :: rest) ty with
              | error e => simp only [hrec] at h; cases h
              | ok child2 =>
                  simp only [hrec] at h
                  have hchildinv : TreeInvAt (pre ++ [seg]) (.d []) := treeInvAt_fresh _
                  have hrec2 : insertWalk (.d []) rest titl ((pre ++ [seg]) ++ rest) ty =
                      .ok child2 := by rw [← hassoc]; exact hrec
                  have hc2inv := ih (pre ++ [seg]) (.d []) child2 titl ty hchildinv hrec2
                  obtain ⟨esc, hesc⟩ := insertWalk_isD rest (.d []) titl _ ty child2 hrec
                  rw [← Except.ok.inj h]
                  exact insertWalkInvStep pre seg es0 child2 esc hesc hinv hc2inv
      | s x => simp [insertWalk] at h
      | l x => simp [insertWalk] at h

theorem forestInv_nil : ForestInv [] := by
  intro c tree h
  cases h

theorem forestInv_dSet (trees : Entries) (c : String) (v : PyVal)
    (hf : ForestInv trees) (hv : TreeInvAt [] v) : ForestInv (dSet trees c v) := by
  intro c' tree' hg
  by_cases hc : c = c'
  · subst hc
    rw [dGet_dSet_self] at hg
    rw [← Option.some.inj hg]
    exact hv
  · rw [dGet_dSet_ne _ _ _ _ hc] at hg
    exact hf c' tree' hg

theorem processOne_inv (trees : Entries) (i : TocItem) (curPath : List String)
    (target : String) (trees' : Entries) (flag : Bool)
    (hf : ForestInv trees)
    (h : processOne trees i curPath target = .ok (trees', flag)) :
    ForestInv trees' := by
  unfold processOne at h
  by_cases hex : excludedItem i = true
  · rw [if_pos hex] at h
    rw [← (Prod.mk.inj (Except.ok.inj h)).1]
    exact hf
  · rw [if_neg hex] at h
    by_cases hq : qualGuard target i = true
    · rw [if_pos hq] at h
      by_cases hn : commentatorName i = ""
      · rw [if_pos hn] at h
        rw [← (Prod.mk.inj (Except.ok.inj h)).1]
        exact hf
      · rw [if_neg hn] at h
        simp only at h
        set trees0 : Entries :=
          match dGet trees (commentatorName i) with
          | some _ => trees
          | none => dSet trees (commentatorName i) (.d []) with htrees0
        have hf0 : ForestInv trees0 := by
          rw [htrees0]
          cases hg : dGet trees (commentatorName i) with
          | some t0 => simpa using hf
          | none => simpa using forestInv_dSet trees (commentatorName i) (.d []) hf (treeInvAt_fresh [])
        cases hg0 : dGet trees0 (commentatorName i) with
        | none => simp only [hg0] at h; cases h
        | some tree =>
            simp only [hg0] at h
            cases hw : insertWalk tree (curPath ++ [itemLabel i]) (itemLabel i)
                (curPath ++ [itemLabel i]) (itemType i) with
            | error e => simp only [hw] at h; cases h
            | ok tree2 =>
                simp only [hw] at h
                have htreeinv : TreeInvAt [] tree := hf0 _ _ hg0
                have hw2 : insertWalk tree (curPath ++ [itemLabel i]) (itemLabel i)
                    ([] ++ (curPath ++ [itemLabel i])) (itemType i) = .ok tree2 := by
                  simpa using hw
                have htree2 := insertWalk_inv (curPath ++ [itemLabel i]) [] tree tree2
                  (itemLabel i) (itemType i) htreeinv hw2
                rw [← (Prod.mk.inj (Except.ok.inj h)).1]
                exact forestInv_dSet trees0 (commentatorName i) tree2 hf0 htree2
    · rw [if_neg hq] at h
      rw [← (Prod.mk.inj (Except.ok.inj h)).1]
      exact hf

theorem searchContents_inv : ∀ trees items curPath target trees',
    ForestInv trees → searchContents trees items curPath target = .ok trees' →
    ForestInv trees' := by
  intro trees items curPath target
  induction trees, items, curPath, target using searchContents.induct with
  | case1 trees curPath target =>
      intro trees' hf h
      rw [searchContents_nil] at h
      rw [← Except.ok.inj h]
      exact hf
  | case2 trees curPath target i rest e hpo =>
      intro trees' hf h
      rw [searchContents_cons] at h
      simp only [hpo] at h
      cases h
  | case3 trees curPath target i rest trees1 hpo ih =>
      intro trees' hf h
      rw [searchContents_cons] at h
      simp only [hpo] at h
      exact ih trees' (processOne_inv trees i curPath target trees1 true hf hpo) h
  | case4 trees curPath target i rest trees1 hpo e hsc ih =>
      intro trees' hf h
      rw [searchContents_cons] at h
      simp only [hpo, hsc] at h
      cases h
  | case5 trees curPath target i rest trees1 hpo trees2 hsc ih1 ih2 =>
      intro trees' hf h
      rw [searchContents_cons] at h
      simp only [hpo, hsc] at h
      have hf1 := processOne_inv trees i curPath target trees1 false hf hpo
      have hf2 := ih1 trees2 hf1 hsc
      exact ih2 trees' hf2 h

theorem processOne_excluded (trees : Entries) (i : TocItem) (curPath : List String)
    (target : String) (h : excludedItem i = true) :
    processOne trees i curPath target = .ok (trees, true) := by
  simp [processOne, h]

theorem processOne_notQual (trees : Entries) (i : TocItem) (curPath : List String)
    (target : String) (hex : excludedItem i = false) (hq : qualGuard target i = false) :
    processOne trees i curPath target = .ok (trees, false) := by
  simp [processOne, hex, hq]

theorem processOne_noName (trees : Entries) (i : TocItem) (curPath : List String)
    (target : String) (hex : excludedItem i = false) (hq : qualGuard target i = true)
    (hn : commentatorName i = "") :
    processOne trees i curPath target = .ok (trees, true) := by
  simp [processOne, hex, hq, hn]

theorem is_specific_iff (target : String) (i : TocItem) :
    is_specific target i = true ↔ i.base_text_titles = [target] := by
  unfold is_specific
  cases hb : i.base_text_titles with
  | nil => simp
  | cons x rest =>
      cases rest with
      | nil => simp [List.contains, eq_comm]
      | cons y rest2 => simp [List.length]

theorem occursIn_tail (i b : TocItem) (rest : List TocItem)
    (h : OccursIn i rest) : OccursIn i (b :: rest) :=
  match h with
  | .head _ _ hmem => .head _ _ (List.mem_cons_of_mem _ hmem)
  | .child _ j _ hmem hocc => .child _ j _ (List.mem_cons_of_mem _ hmem) hocc

theorem occursIn_contents (i b : TocItem) (rest : List TocItem)
    (h : OccursIn i b.contents) : OccursIn i (b :: rest) :=
  OccursIn.child i b _ (List.mem_cons_self _ _) h

theorem not_occursIn_nil (i : TocItem) : ¬OccursIn i [] := fun h =>
  match h with
  | .head _ _ hmem => by cases hmem
  | .child _ j _ hmem _ => by cases hmem

theorem TocItem.withContents_self (i : TocItem) : i.withContents i.contents = i := by
  cases i
  rfl

theorem walkPath_fails (segs : List String) : ∀ v, failsInDicts v segs = true →
    walkPath v segs = .ok none := by
  induction segs with
  | nil => intro v h; simp [failsInDicts] at h
  | cons seg rest ih =>
      intro v h
      cases v with
      | d es =>
          simp only [failsInDicts] at h
          cases hg : dGet es seg with
          | none =>
              have hin : pyIn seg (.d es) = false := by simp [pyIn, hg]
              simp [walkPath, hin]
          | some v2 =>
              simp only [hg] at h
              have hin : pyIn seg (.d es) = true := by simp [pyIn, hg]
              simp only [walkPath, hin, if_true, pyIndex, hg]
              exact ih v2 h
      | s x => simp [failsInDicts] at h
      | l x => simp [failsInDicts] at h

theorem searchAuthor_fails (c : String) (tree : PyVal) (segs : List String)
    (h : failsInDicts tree segs = true) : searchAuthor c tree segs = .ok none := by
  unfold searchAuthor
  rw [walkPath_fails segs tree h]

theorem sst_all_fail (trees : Entries) (segs : List String)
    (h : ∀ c tree, (c, tree) ∈ trees → failsInDicts tree segs = true) :
    search_shadow_trees trees segs = .ok [] := by
  induction trees with
  | nil => rfl
  | cons hd rest ih =>
      obtain ⟨c, tree⟩ := hd
      simp only [search_shadow_trees]
      rw [searchAuthor_fails c tree segs (h c tree (List.mem_cons_self _ _))]
      exact ih (fun c' t' hm => h c' t' (List.mem_cons_of_mem _ hm))

theorem searchAuthor_noTitle_nil (c : String) (tree : PyVal)
    (h : pyIn "title" tree = false) : searchAuthor c tree [] = .ok none := by
  unfold searchAuthor
  simp only [walkPath]
  simp [h]

theorem sst_noTitle_nil (trees : Entries)
    (h : ∀ c tree, (c, tree) ∈ trees → pyIn "title" tree = false) :
    search_shadow_trees trees [] = .ok [] := by
  induction trees with
  | nil => rfl
  | cons hd rest ih =>
      obtain ⟨c, tree⟩ := hd
      simp only [search_shadow_trees]
      rw [searchAuthor_noTitle_nil c tree (h c tree (List.mem_cons_self _ _))]
      exact ih (fun c' t' hm => h c' t' (List.mem_cons_of_mem _ hm))

theorem searchContents_noQual : ∀ trees items curPath target,
    (∀ i, OccursIn i items → qualGuard target i = false) →
    searchContents trees items curPath target = .ok trees := by
  intro trees items curPath target
  induction trees, items, curPath, target using searchContents.induct with
  | case1 trees curPath target =>
      intro _
      exact searchContents_nil trees curPath target
  | case2 trees curPath target i rest e hpo =>
      intro hyp
      have hq : qualGuard target i = false := hyp i (OccursIn.head _ _ (List.mem_cons_self _ _))
      by_cases hex : excludedItem i = true
      · rw [processOne_excluded trees i curPath target hex] at hpo
        cases hpo
      · rw [processOne_notQual trees i curPath target (Bool.not_eq_true _ ▸ hex) hq] at hpo
        cases hpo
  | case3 trees curPath target i rest trees1 hpo ih =>
      intro hyp
      have hq : qualGuard target i = false := hyp i (OccursIn.head _ _ (List.mem_cons_self _ _))
      by_cases hex : excludedItem i = true
      · have h1 := processOne_excluded trees i curPath target hex
        rw [hpo] at h1
        have ht1 : trees1 = trees := (Prod.mk.inj (Except.ok.inj h1)).1
        subst ht1
        rw [searchContents_cons]
        simp only [hpo]
        exact ih (fun i' ho => hyp i' (occursIn_tail i' i rest ho))
      · have h1 := processOne_notQual trees i curPath target (Bool.not_eq_true _ ▸ hex) hq
        rw [hpo] at h1
        cases (Prod.mk.inj (Except.ok.inj h1)).2
  | case4 trees curPath target i rest trees1 hpo e hsc ih =>
      intro hyp
      have hq : qualGuard target i = false := hyp i (OccursIn.head _ _ (List.mem_cons_self _ _))
      by_cases hex : excludedItem i = true
      · have h1 := processOne_excluded trees i curPath target hex
        rw [hpo] at h1
        cases (Prod.mk.inj (Except.ok.inj h1)).2
      · have h1 := processOne_notQual trees i curPath target (Bool.not_eq_true _ ▸ hex) hq
        rw [hpo] at h1
        have ht1 : trees1 = trees := (Prod.mk.inj (Except.ok.inj h1)).1
        subst ht1
        have hcontents := ih (fun i' ho => hyp i' (occursIn_contents i' i rest ho))
        rw [hcontents] at hsc
        cases hsc
  | case5 trees curPath target i rest trees1 hpo trees2 hsc ih1 ih2 =>
      intro hyp
      have hq : qualGuard target i = false := hyp i (OccursIn.head _ _ (List.mem_cons_self _ _))
      by_cases hex : excludedItem i = true
      · have h1 := processOne_excluded trees i curPath target hex
        rw [hpo] at h1
        cases (Prod.mk.inj (Except.ok.inj h1)).2
      · have h1 := processOne_notQual trees i curPath target (Bool.not_eq_true _ ▸ hex) hq
        rw [hpo] at h1
        have ht1 : trees1 = trees := (Prod.mk.inj (Except.ok.inj h1)).1
        subst ht1
        have hcontents := ih1 (fun i' ho => hyp i' (occursIn_contents i' i rest ho))
        rw [hcontents] at hsc
        have ht2 : trees2 = trees1 := Except.ok.inj hsc.symm
        subst ht2
        rw [searchContents_cons]
        simp only [hpo, hcontents]
        exact ih2 (fun i' ho => hyp i' (occursIn_tail i' i rest ho))

theorem qualGuard_iff (target : String) (i : TocItem) :
    qualGuard target i = true ↔
      (depTest i = true ∧
        (i.base_text_titles = [target] ∨ is_category_specific target i = true)) := by
  unfold qualGuard
  rw [Bool.and_eq_true, Bool.or_eq_true, is_specific_iff]

/-- C7: `build_shadow_trees` is deterministic — it is a pure function of the
decoded TOC and the target title (the embedding is a function, mirroring
the code, which reads no state other than its two inputs), so two runs on
the unmodified TOC give structurally identical forests. -/
theorem buildDeterministic : ∀ (toc : List TocItem) (target : String),
    build_shadow_trees toc target = build_shadow_trees toc target :=
  fun _ _ => rfl

/-- C8: in every forest `build_shadow_trees` returns, a node whose `"path"`
annotation is a list is reachable from its tree's root by exactly that
sequence of mapping keys — the stored path and the key sequence coincide. -/
theorem pathKeySync (toc : List TocItem) (target : String) (trees : Entries)
    (hb : build_shadow_trees toc target = .ok trees) :
    ∀ author tree, dGet trees author = some tree →
    ∀ ks es L, walkDicts tree ks = some (.d es) → dGet es "path" = some (.l L) →
      L = ks := by
  have hf := searchContents_inv [] toc [] target trees forestInv_nil hb
  intro author tree hg ks es L hw hp
  have := hf author tree hg ks es L hw hp
  simpa using this

/-- Witness for C8 at the Rashi scenario: the terminal stored under the key
sequence `["Rashi on Genesis"]` carries exactly that list as its `"path"`
annotation. -/
theorem pathKeySync_witness :
    build_shadow_trees tocScenario "Genesis" = .ok forestScenario ∧
    (["Rashi on Genesis"] : List String) = ["Rashi on Genesis"] := by
  have h1 : processOne [] (.node "Genesis" "" ["Tanakh"] "" [] "" []) [] "Genesis" =
      .ok ([], false) := rfl
  have h2 : processOne [] (.node "Rashi on Genesis" "רש\"י" ["Commentary"] "" ["Genesis"] "" [])
      [] "Genesis" = .ok (forestScenario, false) := rfl
  have hb : build_shadow_trees tocScenario "Genesis" = .ok forestScenario := by
    simp only [build_shadow_trees, tocScenario, searchContents_cons, searchContents_nil,
      TocItem.contents, h1, h2]
  refine ⟨hb, ?_⟩
  exact pathKeySync tocScenario "Genesis" forestScenario hb "רש\"י" _ rfl
    ["Rashi on Genesis"] _ ["Rashi on Genesis"] rfl rfl

/-- C1 (corrected): a node whose case-folded short description contains a
modernity keyword is skipped as a whole — the `continue` of line 70 runs
before the recursion of line 102, so the node is never classified AND its
subtree is never traversed; the build behaves exactly as if the node were
deleted from its sibling list.  (The claim's assertion that qualifying
descendants still appear is refuted by `excludedSubtreeSkipped_cex`.) -/
theorem excludedSubtreeSkipped (before : List TocItem) (i : TocItem)
    (after : List TocItem) (trees : Entries) (curPath : List String)
    (target : String) (h : excludedItem i = true) :
    searchContents trees (before ++ i :: after) curPath target =
      searchContents trees (before ++ after) curPath target := by
  induction before generalizing trees with
  | nil =>
      simp only [List.nil_append]
      rw [searchContents_cons]
      simp only [processOne_excluded trees i curPath target h]
  | cons b before2 ih =>
      simp only [List.cons_append]
      rw [searchContents_cons, searchContents_cons]
      cases hpo : processOne trees b curPath target with
      | error e => simp only [hpo]
      | ok p =>
          obtain ⟨trees1, flag⟩ := p
          cases flag with
          | true =>
              simp only [hpo]
              exact ih trees1
          | false =>
              simp only [hpo]
              cases hsc : searchContents trees1 b.contents (curPath ++ [itemLabel b]) target with
              | error e => simp only [hsc]
              | ok trees2 =>
                  simp only [hsc]
                  exact ih trees2

/-- Counterexample for C1 as stated: `cModernParent` is excluded by the
keyword filter, its child `cChild` is not excluded, qualifies for target
`"T"` and has a commentator name, yet the build returns the empty forest —
the qualifying descendant does not appear. -/
theorem excludedSubtreeSkipped_cex :
    build_shadow_trees [cModernParent] "T" = .ok [] ∧
    excludedItem cModernParent = true ∧
    cChild ∈ cModernParent.contents ∧
    excludedItem cChild = false ∧
    qualGuard "T" cChild = true ∧
    commentatorName cChild = "R" := by
  have h1 : processOne [] cModernParent [] "T" = .ok ([], true) := rfl
  refine ⟨?_, by decide, List.mem_cons_self _ _, by decide, by decide, by decide⟩
  simp only [build_shadow_trees, searchContents_cons, searchContents_nil, h1]

/-- Witness for C1 (corrected) at the concrete excluded parent. -/
theorem excludedSubtreeSkipped_witness :
    excludedItem cModernParent = true ∧
    searchContents [] [cModernParent] [] "T" = searchContents [] [] [] "T" :=
  ⟨by decide, excludedSubtreeSkipped [] cModernParent [] [] [] "T" (by decide)⟩

/-- C2 (corrected): for a non-excluded leaf node, the build records an
entry for it iff the line 76 test holds AND the commentator name
(`heTitle or title`) is non-empty — a node passing the dependency and
target tests with two empty labels is silently dropped (line 78), which
refutes the claim's unconditional biconditional
(`classifyCondition_cex`).  The target half of the test is stated as the
claim words it: `base_text_titles` is exactly the one-element list
`[target]`, or some category contains the target as a substring. -/
theorem classifyCondition (i : TocItem) (target : String)
    (hc : i.contents = []) (hex : excludedItem i = false) :
    (∃ f, build_shadow_trees [i] target = .ok f ∧ f ≠ []) ↔
      (depTest i = true ∧
        (i.base_text_titles = [target] ∨ is_category_specific target i = true) ∧
        commentatorName i ≠ "") := by
  unfold build_shadow_trees
  by_cases hq : qualGuard target i = true
  · by_cases hn : commentatorName i = ""
    · rw [searchContents_cons]
      simp only [processOne_noName [] i [] target hex hq hn]
      rw [searchContents_nil]
      constructor
      · rintro ⟨f, hf, hne⟩
        exact absurd (Except.ok.inj hf) (fun hh => hne hh.symm)
      · rintro ⟨_, _, hn2⟩
        exact absurd hn hn2
    · have hpo : processOne [] i [] target =
          .ok ([(commentatorName i, .d [(itemLabel i,
            .d [("title", .s (itemLabel i)), ("path", .l ([] ++ [itemLabel i])),
                ("type", .s (itemType i))])])], false) := by
        unfold processOne
        rw [if_neg (by simp [hex]), if_pos hq, if_neg hn]
        simp [dGet, dSet, insertWalk, annotate]
      rw [searchContents_cons]
      simp only [hpo, hc, searchContents_nil]
      constructor
      · rintro ⟨f, hf, hne⟩
        obtain ⟨hdep, hor⟩ := (qualGuard_iff target i).mp hq
        exact ⟨hdep, hor, hn⟩
      · rintro _
        exact ⟨_, rfl, List.cons_ne_nil _ _⟩
  · rw [searchContents_cons]
    have hqf : qualGuard target i = false := by
      cases hqv : qualGuard target i with
      | true => exact absurd hqv hq
      | false => rfl
    simp only [processOne_notQual [] i [] target hex hqf, hc, searchContents_nil]
    constructor
    · rintro ⟨f, hf, hne⟩
      exact absurd (Except.ok.inj hf) (fun hh => hne hh.symm)
    · rintro ⟨hdep, hor, hn⟩
      exact absurd ((qualGuard_iff target i).mpr ⟨hdep, hor⟩) hq

/-- Counterexample for C2 as stated: `cNoName` passes the dependency test
and the category-substring target test for target `"Commentary"` and is not
excluded, yet the build returns the empty forest — no entry is contributed
because both labels are empty. -/
theorem classifyCondition_cex :
    depTest cNoName = true ∧
    is_category_specific "Commentary" cNoName = true ∧
    excludedItem cNoName = false ∧
    build_shadow_trees [cNoName] "Commentary" = .ok [] := by
  have h1 : processOne [] cNoName [] "Commentary" = .ok ([], true) := rfl
  refine ⟨by decide, by decide, by decide, ?_⟩
  simp only [build_shadow_trees, searchContents_cons, searchContents_nil, h1]

/-- Witness for C2 (corrected) at the qualifying commentary `cX`. -/
theorem classifyCondition_witness :
    (∃ f, build_shadow_trees [cX] "T" = .ok f ∧ f ≠ []) ↔
      (depTest cX = true ∧
        (cX.base_text_titles = ["T"] ∨ is_category_specific "T" cX = true) ∧
        commentatorName cX ≠ "") :=
  classifyCondition cX "T" rfl (by decide)

/-- C4 (corrected): on the spec's scenario the build produces exactly one
author key `רש"י` with exactly one terminal node, whose `title` is
`"Rashi on Genesis"` and `kind` field (`"type"`) is `"Commentary"`, but
whose path is `["Rashi on Genesis"]` — a qualifying node's final path
segment is its primary-language label when present, else the secondary
(line 86 reads `en_title or he_title`), not the other way around as the
claim asserts. -/
theorem rashiScenario :
    build_shadow_trees tocScenario "Genesis" = .ok forestScenario := by
  have h1 : processOne [] (.node "Genesis" "" ["Tanakh"] "" [] "" []) [] "Genesis" =
      .ok ([], false) := rfl
  have h2 : processOne [] (.node "Rashi on Genesis" "רש\"י" ["Commentary"] "" ["Genesis"] "" [])
      [] "Genesis" = .ok (forestScenario, false) := rfl
  simp only [build_shadow_trees, tocScenario, searchContents_cons, searchContents_nil,
    TocItem.contents, h1, h2]

/-- Counterexample for C4 as stated: the single terminal of the built
forest sits under the key `"Rashi on Genesis"` and stores the path
`["Rashi on Genesis"]`, which differs from the claimed path `["רש"י"]`. -/
theorem rashiScenario_cex :
    build_shadow_trees tocScenario "Genesis" =
      .ok [("רש\"י", .d [("Rashi on Genesis",
        .d [("title", .s "Rashi on Genesis"), ("path", .l ["Rashi on Genesis"]),
            ("type", .s "Commentary")])])] ∧
    (["Rashi on Genesis"] : List String) ≠ ["רש\"י"] := by
  have h1 : processOne [] (.node "Genesis" "" ["Tanakh"] "" [] "" []) [] "Genesis" =
      .ok ([], false) := rfl
  have h2 : processOne [] (.node "Rashi on Genesis" "רש\"י" ["Commentary"] "" ["Genesis"] "" [])
      [] "Genesis" = .ok (forestScenario, false) := rfl
  constructor
  · simp only [build_shadow_trees, tocScenario, searchContents_cons, searchContents_nil,
      TocItem.contents, h1, h2]
    rfl
  · decide

/-- C5 (corrected): the terminal entry written for a classified node
carries `"type"` equal to the literal string `"Targum"` — not
`"Translation"` — when `"Targum"` is among the node's categories, and
`"Commentary"` otherwise (line 98). -/
theorem kindTargumOrCommentary (trees : Entries) (i : TocItem) (curPath : List String)
    (target : String) (trees' : Entries)
    (hex : excludedItem i = false) (hq : qualGuard target i = true)
    (hn : commentatorName i ≠ "")
    (h : processOne trees i curPath target = .ok (trees', false)) :
    ∃ tree es, dGet trees' (commentatorName i) = some tree ∧
      walkDicts tree (curPath ++ [itemLabel i]) = some (.d es) ∧
      dGet es "type" =
        some (.s (if i.categories.contains "Targum" then "Targum" else "Commentary")) := by
  unfold processOne at h
  rw [if_neg (by simp [hex]), if_pos hq, if_neg hn] at h
  simp only at h
  cases hg0 : dGet (match dGet trees (commentatorName i) with
      | some _ => trees
      | none => dSet trees (commentatorName i) (.d [])) (commentatorName i) with
  | none => simp only [hg0] at h; cases h
  | some tree =>
      simp only [hg0] at h
      cases hw : insertWalk tree (curPath ++ [itemLabel i]) (itemLabel i)
          (curPath ++ [itemLabel i]) (itemType i) with
      | error e => simp only [hw] at h; cases h
      | ok tree2 =>
          simp only [hw] at h
          obtain ⟨es, hwd, ht, hp, hty⟩ :=
            insertWalk_walkDicts (curPath ++ [itemLabel i]) tree (itemLabel i)
              (curPath ++ [itemLabel i]) (itemType i) tree2 hw
          refine ⟨tree2, es, ?_, hwd, ?_⟩
          · rw [← (Prod.mk.inj (Except.ok.inj h)).1, dGet_dSet_self]
          · simpa [itemType] using hty

/-- Counterexample for C5 as stated: the Targum node `cTargum` is
classified with `"type"` annotation `"Targum"`, and `"Targum"` is not the
claimed value `"Translation"`. -/
theorem kindTargumOrCommentary_cex :
    build_shadow_trees [cTargum] "Genesis" = .ok fTargum ∧
    dGet [("title", PyVal.s "Onkelos"), ("path", .l ["Onkelos"]), ("type", .s "Targum")]
      "type" = some (.s "Targum") ∧
    PyVal.s "Targum" ≠ PyVal.s "Translation" := by
  have h1 : processOne [] (.node "Onkelos" "" ["Targum"] "" ["Genesis"] "" []) [] "Genesis" =
      .ok (fTargum, false) := rfl
  refine ⟨?_, rfl, ?_⟩
  · simp only [build_shadow_trees, searchContents_cons, searchContents_nil,
      cTargum, TocItem.contents, h1]
  · intro hh
    exact absurd (PyVal.s.inj hh) (by decide)

/-- Witness for C5 (corrected) at the Targum node `cTargum`. -/
theorem kindTargumOrCommentary_witness :
    ∃ tree es, dGet fTargum (commentatorName cTargum) = some tree ∧
      walkDicts tree ([] ++ [itemLabel cTargum]) = some (.d es) ∧
      dGet es "type" =
        some (.s (if cTargum.categories.contains "Targum" then "Targum" else "Commentary")) :=
  kindTargumOrCommentary [] cTargum [] "Genesis" fTargum (by decide) (by decide)
    (by decide) rfl

/-- C3: when `search_shadow_trees` returns normally, it reports an author
iff every segment of the search path resolves through dict entries of that
author's tree and the node reached is a dict carrying a `"title"` entry; a
walk that dies on a missing key partway (a mere prefix resolving) or ends
on an entry without `"title"` (an intermediate grouping level) yields no
match for that author. -/
theorem matchIffFullPathTitled : ∀ trees segs results,
    (trees.map Prod.fst).Nodup →
    search_shadow_trees trees segs = .ok results →
    ∀ a, (∃ r ∈ results, r.author = a) ↔
      (∃ tree es, dGet trees a = some tree ∧ walkDicts tree segs = some (.d es) ∧
        (dGet es "title").isSome = true) := by
  intro trees
  induction trees with
  | nil =>
      intro segs results hnd hok a
      simp only [search_shadow_trees] at hok
      rw [← Except.ok.inj hok]
      constructor
      · rintro ⟨r, hr, _⟩
        cases hr
      · rintro ⟨tree, es, hg, _, _⟩
        simp [dGet] at hg
  | cons hd rest ih =>
      obtain ⟨c, tree⟩ := hd
      intro segs results hnd hok a
      simp only [search_shadow_trees] at hok
      have hnd2 : (rest.map Prod.fst).Nodup := by
        simp only [List.map_cons, List.nodup_cons] at hnd
        exact hnd.2
      have hcnot : c ∉ rest.map Prod.fst := by
        simp only [List.map_cons, List.nodup_cons] at hnd
        exact hnd.1
      cases hsa : searchAuthor c tree segs with
      | error e => simp only [hsa] at hok; cases hok
      | ok o =>
          cases o with
          | none =>
              simp only [hsa] at hok
              by_cases hac : c = a
              · subst hac
                constructor
                · rintro ⟨r, hr, hra⟩
                  have hmem := sst_authors_mem rest segs results hok r hr
                  rw [hra] at hmem
                  exact absurd hmem hcnot
                · rintro ⟨tree2, es, hg, hw, ht⟩
                  have htt : tree2 = tree := by
                    simp [dGet] at hg
                    exact hg.symm
                  subst htt
                  exact absurd ⟨es, hw, ht⟩ (searchAuthor_ok_none c tree2 segs hsa)
              · have hdg : dGet ((c, tree) :: rest) a = dGet rest a := by
                  simp [dGet, hac]
                rw [hdg]
                exact ih segs results hnd2 hok a
          | some r0 =>
              simp only [hsa] at hok
              cases hrest : search_shadow_trees rest segs with
              | error e => simp only [hrest] at hok; cases hok
              | ok rs =>
                  simp only [hrest] at hok
                  have hres : results = r0 :: rs := (Except.ok.inj hok).symm
                  subst hres
                  obtain ⟨hr0a, es0, hw0, ht0⟩ := searchAuthor_ok_some c tree segs r0 hsa
                  by_cases hac : c = a
                  · subst hac
                    constructor
                    · intro _
                      refine ⟨tree, es0, ?_, hw0, ht0⟩
                      simp [dGet]
                    · intro _
                      exact ⟨r0, List.mem_cons_self _ _, hr0a⟩
                  · have hdg : dGet ((c, tree) :: rest) a = dGet rest a := by
                      simp [dGet, hac]
                    have hsplit : (∃ r ∈ r0 :: rs, r.author = a) ↔ (∃ r ∈ rs, r.author = a) := by
                      constructor
                      · rintro ⟨r, hr, hra⟩
                        cases List.mem_cons.mp hr with
                        | inl heq =>
                            rw [heq] at hra
                            rw [hr0a] at hra
                            exact absurd hra hac
                        | inr htail => exact ⟨r, htail, hra⟩
                      · rintro ⟨r, hr, hra⟩
                        exact ⟨r, List.mem_cons_of_mem _ hr, hra⟩
                    rw [hdg, hsplit]
                    exact ih segs rs hnd2 hrest a

/-- Witness for C3 at the one-author forest `forestX` and path `["X"]`. -/
theorem matchIffFullPathTitled_witness :
    (∃ r ∈ [recX], r.author = "R") ↔
      (∃ tree es, dGet forestX "R" = some tree ∧ walkDicts tree ["X"] = some (.d es) ∧
        (dGet es "title").isSome = true) :=
  matchIffFullPathTitled forestX ["X"] [recX] (by decide) rfl "R"

/-- C6 (corrected): an empty forest yields the empty match list for every
path; a forest in which every author's walk dies on a missing key while
still on a mapping node yields the empty match list; and a TOC with no
qualifying node builds to the empty forest.  (The stronger reading of the
claim — no error whenever no branch matches the whole path — is refuted by
`emptyResultSafety_cex`, where the walk steps into a `"path"` annotation
and raises a `TypeError`.) -/
theorem emptyResultSafety :
    (∀ segs, search_shadow_trees [] segs = .ok []) ∧
    (∀ trees segs,
      (∀ c tree, (c, tree) ∈ trees → failsInDicts tree segs = true) →
      search_shadow_trees trees segs = .ok []) ∧
    (∀ toc target, (∀ i, OccursIn i toc → qualGuard target i = false) →
      build_shadow_trees toc target = .ok []) :=
  ⟨fun _ => rfl, sst_all_fail,
   fun toc target h => searchContents_noQual [] toc [] target h⟩

/-- Counterexample for C6 as stated: the forest built from the single
commentary `cX` contains no branch for the path `["X", "path", "X"]` (the
dict-only walk fails), yet querying that path raises a `TypeError` instead
of returning the empty sequence, because the second segment steps into the
`"path"` annotation list. -/
theorem emptyResultSafety_cex :
    build_shadow_trees [cX] "T" = .ok forestX ∧
    walkDicts (.d [("X", .d [("title", .s "X"), ("path", .l ["X"]),
        ("type", .s "Commentary")])]) ["X", "path", "X"] = none ∧
    search_shadow_trees forestX ["X", "path", "X"] = .error .typeError := by
  have h1 : processOne [] (.node "X" "R" ["Commentary"] "" ["T"] "" []) [] "T" =
      .ok (forestX, false) := rfl
  refine ⟨?_, rfl, rfl⟩
  simp only [build_shadow_trees, cX, searchContents_cons, searchContents_nil,
    TocItem.contents, h1]

/-- Witness for C6 (corrected): an empty forest, a one-author forest whose
walk fails at a mapping node, and a TOC whose single node never
qualifies. -/
theorem emptyResultSafety_witness :
    search_shadow_trees [] ["a"] = .ok [] ∧
    search_shadow_trees [("a", PyVal.d [])] ["x"] = .ok [] ∧
    build_shadow_trees [cPlain] "G" = .ok [] := by
  refine ⟨emptyResultSafety.1 ["a"], emptyResultSafety.2.1 _ _ ?_,
    emptyResultSafety.2.2 [cPlain] "G" ?_⟩
  · intro c tree h
    rw [List.mem_singleton] at h
    rw [(Prod.mk.inj h).2]
    rfl
  · intro i ho
    exact match ho with
    | .head _ _ hmem => by
        rw [List.mem_singleton] at hmem
        rw [hmem]
        decide
    | .child _ j _ hmem hocc => by
        rw [List.mem_singleton] at hmem
        rw [hmem] at hocc
        exact absurd hocc (not_occursIn_nil i)

/-- C9: the classifier does not mutate the TOC.  `searchContentsH` threads
the traversed TOC slice through the computation, re-emitting each node the
loop body processed; it provably returns the slice unchanged alongside the
same forest that `searchContents` builds, because no statement of the loop
body writes into a TOC node. -/
theorem buildPreservesToc : ∀ trees items curPath target,
    searchContentsH trees items curPath target =
      (searchContents trees items curPath target).map (fun f => (f, items)) := by
  intro trees items curPath target
  induction trees, items, curPath, target using searchContentsH.induct with
  | case1 trees curPath target =>
      rw [searchContentsH_nil, searchContents_nil]
      rfl
  | case2 trees curPath target i rest e hpo =>
      rw [searchContentsH_cons, searchContents_cons]
      simp only [hpo]
      rfl
  | case3 trees curPath target i rest trees1 hpo e hH ih =>
      rw [searchContentsH_cons, searchContents_cons]
      simp only [hpo, ih]
      cases hsc : searchContents trees1 rest curPath target with
      | error e2 => simp [Except.map]
      | ok f => simp [Except.map]
  | case4 trees curPath target i rest trees1 hpo trees2 rest2 hH ih =>
      rw [searchContentsH_cons, searchContents_cons]
      simp only [hpo, ih]
      cases hsc : searchContents trees1 rest curPath target with
      | error e2 => simp [Except.map]
      | ok f => simp [Except.map]
  | case5 trees curPath target i rest trees1 hpo e hH ih =>
      rw [searchContentsH_cons, searchContents_cons]
      simp only [hpo, ih]
      cases hsc : searchContents trees1 i.contents (curPath ++ [itemLabel i]) target with
      | error e2 => simp [Except.map]
      | ok f =>
          rw [ih, hsc] at hH
          simp [Except.map] at hH
  | case6 trees curPath target i rest trees1 hpo trees2 rest2 hH1 e hH2 ih1 ih2 =>
      rw [searchContentsH_cons, searchContents_cons]
      simp only [hpo, ih1]
      cases hsc : searchContents trees1 i.contents (curPath ++ [itemLabel i]) target with
      | error e2 => simp [Except.map]
      | ok f =>
          rw [ih1, hsc] at hH1
          simp only [Except.map] at hH1
          have hf : trees2 = f := ((Prod.mk.inj (Except.ok.inj hH1)).1).symm
          subst hf
          simp only [Except.map, ih2]
          cases hsr : searchContents trees2 rest curPath target with
          | error e3 => simp [Except.map]
          | ok g => simp [Except.map, TocItem.withContents_self]
  | case7 trees curPath target i rest trees1 hpo trees2 rest2 hH1 trees3 rest3 hH2 ih1 ih2 =>
      rw [searchContentsH_cons, searchContents_cons]
      simp only [hpo, ih1]
      cases hsc : searchContents trees1 i.contents (curPath ++ [itemLabel i]) target with
      | error e2 => simp [Except.map]
      | ok f =>
          rw [ih1, hsc] at hH1
          simp only [Except.map] at hH1
          have hf : trees2 = f := ((Prod.mk.inj (Except.ok.inj hH1)).1).symm
          subst hf
          simp only [Except.map, ih2]
          cases hsr : searchContents trees2 rest curPath target with
          | error e3 => simp [Except.map]
          | ok g => simp [Except.map, TocItem.withContents_self]

/-- C10 (corrected): querying with the empty path returns the empty
sequence for every forest in which no author's root mapping carries a
`"title"` entry.  (Built forests can violate the proviso: a qualifying
top-level node labelled literally `"title"` puts a `"title"` key into the
root mapping, and the empty-path query then raises a `KeyError` —
`emptyPathQuery_cex`.) -/
theorem emptyPathQuery (trees : Entries)
    (h : ∀ c tree, (c, tree) ∈ trees → pyIn "title" tree = false) :
    search_shadow_trees trees [] = .ok [] :=
  sst_noTitle_nil trees h

/-- Counterexample for C10 as stated: the forest built from `cTitleLabel`
(primary label `"title"`) makes the empty-path query raise a `KeyError`
instead of returning the empty sequence. -/
theorem emptyPathQuery_cex :
    build_shadow_trees [cTitleLabel] "G" = .ok forestTitle ∧
    search_shadow_trees forestTitle [] = .error .keyError := by
  have h1 : processOne [] (.node "title" "R" ["Commentary"] "" ["G"] "" []) [] "G" =
      .ok (forestTitle, false) := rfl
  refine ⟨?_, rfl⟩
  simp only [build_shadow_trees, cTitleLabel, searchContents_cons, searchContents_nil,
    TocItem.contents, h1]

/-- Witness for C10 (corrected) at the ordinary built forest `forestX`,
whose root mapping has no `"title"` entry. -/
theorem emptyPathQuery_witness : search_shadow_trees forestX [] = .ok [] :=
  emptyPathQuery forestX (by
    intro c tree h
    simp only [forestX, List.mem_singleton] at h
    rw [(Prod.mk.inj h).2]
    rfl)

end Sefaria
